/-
Verification of the kimm model-variant registry and the MobileNetV3
architecture-configuration compiler.

The definitions below are shallow embeddings of the Python sources:
  * kimm/_src/utils/model_registry.py  (fuzzy matcher, registry, list_models)
  * kimm/_src/models/mobilenet_v3.py   (stage-configuration expansion)
  * kimm/_src/blocks/depthwise_separation.py, inverted_residual.py
    (skip-connection contract of the block builders)
Tensor-level layer operations (convolutions, normalisation, pooling) are
opaque collaborators: the embedding tracks exactly the data the compiler
itself computes — channel counts, strides, effective block parameters,
block-application order and names, feature-tap keys, and raised errors.
Python floats are modelled as rationals, Python ints as Int/Nat.
-/
import Mathlib

namespace Kimm

/-! ## Fuzzy name matcher (model_registry.py, `_match_string`) -/

/-- Normalisation of the query performed at the top of `_match_string`:
`query.lower().replace(" ", "").replace("_", "").replace(".", "")`. -/
def normalizeQuery (query : String) : List Char :=
  (query.data.map Char.toLower).filter fun ch => !(ch == ' ' || ch == '_' || ch == '.')

/-- Lowercasing of the target: `target.lower()` (no stripping). -/
def lowerChars (target : String) : List Char :=
  target.data.map Char.toLower

/-- Inner loop of `_match_string`: scan `enumerate(target)` from the front and
return the first index `idx` with `q_char == t_char and idx > matched_idx`. -/
def innerFindAux (qChar : Char) (matchedIdx : Int) : List Char → Nat → Option Nat
  | [], _ => none
  | tChar :: rest, idx =>
    if qChar = tChar ∧ (idx : Int) > matchedIdx then some idx
    else innerFindAux qChar matchedIdx rest (idx + 1)

/-- Outer loop of `_match_string`: thread `matched_idx` (initially `-1`)
through the query characters; fail as soon as one finds no match. -/
def matchLoopAux (target : List Char) : List Char → Int → Bool
  | [], _ => true
  | qChar :: rest, matchedIdx =>
    match innerFindAux qChar matchedIdx target 0 with
    | none => false
    | some idx => matchLoopAux target rest (idx : Int)

/-- Embedding of `_match_string(query, target)`. -/
def matchString (query target : String) : Bool :=
  matchLoopAux (lowerChars target) (normalizeQuery query) (-1)

/-- Index of the first occurrence of a character in a list
(proof-side helper used to characterise `innerFindAux`). -/
def findFirst (qChar : Char) : List Char → Option Nat
  | [] => none
  | c :: cs => if qChar = c then some 0 else (findFirst qChar cs).map (· + 1)

theorem findFirst_none {q : Char} : ∀ {l : List Char}, findFirst q l = none → q ∉ l := by
  intro l
  induction l with
  | nil => intro _ h; exact absurd h (List.not_mem_nil q)
  | cons c cs ih =>
    intro h hmem
    by_cases hqc : q = c
    · simp [findFirst, hqc] at h
    · simp [findFirst, hqc] at h
      rcases List.mem_cons.mp hmem with h' | h'
      · exact hqc h'
      · exact absurd h' (ih h)

theorem findFirst_decomp {q : Char} : ∀ {l : List Char} {j : Nat},
    findFirst q l = some j →
    ∃ as bs, l = as ++ q :: bs ∧ q ∉ as ∧ as.length = j ∧ bs = l.drop (j + 1) := by
  intro l
  induction l with
  | nil => intro j h; simp [findFirst] at h
  | cons c cs ih =>
    intro j h
    by_cases hqc : q = c
    · simp [findFirst, hqc] at h
      exact ⟨[], cs, by simp [hqc], by simp, by simp [← h], by simp [← h]⟩
    · simp only [findFirst, if_neg hqc, Option.map_eq_some'] at h
      obtain ⟨j', hj', rfl⟩ := h
      obtain ⟨as, bs, hl, hnmem, hlen, hdrop⟩ := ih hj'
      refine ⟨c :: as, bs, by simp [hl], ?_, by simp [hlen], by simp [hdrop]⟩
      intro hmem
      rcases List.mem_cons.mp hmem with h' | h'
      · exact hqc h'
      · exact hnmem h'

theorem innerFindAux_eq (q : Char) (mi : Int) : ∀ (l : List Char) (k : Nat),
    innerFindAux q mi l k =
      (findFirst q (l.drop (mi + 1 - k).toNat)).map (fun j => k + (mi + 1 - k).toNat + j) := by
  intro l
  induction l with
  | nil => intro k; simp [innerFindAux, findFirst]
  | cons c cs ih =>
    intro k
    by_cases hk : mi < (k : Int)
    · have hd : (mi + 1 - (k : Int)).toNat = 0 := by omega
      rw [hd, List.drop_zero]
      by_cases hqc : q = c
      · simp [innerFindAux, hqc, hk, findFirst]
      · have hd' : (mi + 1 - ((k : Int) + 1)).toNat = 0 := by omega
        rw [innerFindAux, if_neg (by tauto), ih (k + 1)]
        push_cast [hd']
        rw [List.drop_zero, findFirst, if_neg hqc]
        cases findFirst q cs with
        | none => simp
        | some j => simp; omega
    · have hcond : ¬(q = c ∧ (k : Int) > mi) := by
        intro hc; exact hk hc.2
      rw [innerFindAux, if_neg hcond, ih (k + 1)]
      have hd : (mi + 1 - (k : Int)).toNat = (mi + 1 - ((k : Int) + 1)).toNat + 1 := by omega
      rw [hd, List.drop_succ_cons]
      push_cast
      cases findFirst q (cs.drop (mi + 1 - ((k : Int) + 1)).toNat) with
      | none => simp
      | some j => simp; omega

theorem sublist_of_cons_sublist_append {q : Char} {rest bs : List Char} :
    ∀ {as : List Char}, q ∉ as → (q :: rest).Sublist (as ++ q :: bs) → rest.Sublist bs := by
  intro as
  induction as with
  | nil =>
    intro _ h
    simp only [List.nil_append] at h
    exact (List.cons_sublist_cons).mp h
  | cons a as' ih =>
    intro hnmem h
    have hqa : q ≠ a := fun hq => hnmem (hq ▸ List.mem_cons_self a as')
    have hnmem' : q ∉ as' := fun hm => hnmem (List.mem_cons_of_mem a hm)
    rw [List.cons_append] at h
    cases h with
    | cons _ h' => exact ih hnmem' h'
    | cons₂ _ h' => exact absurd rfl hqa

theorem matchLoopAux_iff : ∀ (qs : List Char) (t : List Char) (mi : Int), -1 ≤ mi →
    (matchLoopAux t qs mi = true ↔ qs.Sublist (t.drop (mi + 1).toNat)) := by
  intro qs
  induction qs with
  | nil => intro t mi _; simp [matchLoopAux, List.nil_sublist]
  | cons q rest ih =>
    intro t mi hmi
    have hinner := innerFindAux_eq q mi t 0
    have h0 : ((mi + 1 - (0 : Nat)).toNat : Nat) = (mi + 1).toNat := by omega
    rw [h0] at hinner
    rw [matchLoopAux]
    cases hff : findFirst q (t.drop (mi + 1).toNat) with
    | none =>
      rw [hff] at hinner
      rw [hinner]
      simp only [Option.map_none']
      constructor
      · intro h; exact absurd h (by simp)
      · intro h
        exact absurd (h.subset (List.mem_cons_self q rest)) (findFirst_none hff)
    | some j =>
      rw [hff] at hinner
      rw [hinner]
      simp only [Option.map_some']
      obtain ⟨as, bs, hdecomp, hnmem, hlen, hbs⟩ := findFirst_decomp hff
      have hidx : ((((0 : Nat) + (mi + 1).toNat + j : Nat) : Int) + 1).toNat
          = (mi + 1).toNat + (j + 1) := by omega
      rw [ih t _ (by omega), hidx, ← List.drop_drop, ← hbs]
      constructor
      · intro h
        rw [hdecomp]
        exact ((h.cons₂ q).trans (List.sublist_append_right as (q :: bs)))
      · intro h
        rw [hdecomp] at h
        exact sublist_of_cons_sublist_append hnmem h

/-- C3: `_match_string(query, target)` returns true iff the normalised query
(lowercased, with spaces, underscores and dots removed) is an ordered
subsequence of the lowercased target, matched at strictly increasing
positions (`List.Sublist`); the empty and separator-only queries match every
target; `"mobilenetv3"` matches `"MobileNetV3W100Large"`; `"ba"` does not
match `"ab"`. -/
theorem c3_match_string_subsequence :
    (∀ query target : String,
        matchString query target = true ↔ (normalizeQuery query).Sublist (lowerChars target))
    ∧ (∀ target : String, matchString "" target = true)
    ∧ (∀ target : String, matchString " _." target = true)
    ∧ matchString "mobilenetv3" "MobileNetV3W100Large" = true
    ∧ matchString "ba" "ab" = false := by
  refine ⟨?_, ?_, ?_, by decide, by decide⟩
  · intro query target
    have h := matchLoopAux_iff (normalizeQuery query) (lowerChars target) (-1) (by omega)
    simpa [matchString] using h
  · intro target; rfl
  · intro target; rfl

/-! ## Channel rounding utility (`make_divisible`) -/

/-- Modelled from the spec: the Channel Rounding Utility
`make_divisible(value, divisor=8, min_value=None, round_limit=0.9)`; its
source file (`kimm/_src/utils/make_divisble.py`) is not under `src/`.
Per the spec: compute `rounded = max(min_value or divisor,
floor(value + divisor/2) // divisor * divisor)`; if
`rounded < round_limit * value`, bump `rounded` by `divisor`.
Floats are modelled as rationals, `//` as floor division (`Int.fdiv`),
and Python's falsy `or` maps a zero `min_value` to `divisor`. -/
def make_divisible (value : ℚ) (divisor : ℤ := 8) (minValue : Option ℤ := none)
    (roundLimit : ℚ := 9 / 10) : ℤ :=
  let minV : ℤ :=
    match minValue with
    | none => divisor
    | some m => if m = 0 then divisor else m
  let newV : ℤ := max minV (⌊value + (divisor : ℚ) / 2⌋.fdiv divisor * divisor)
  if (newV : ℚ) < roundLimit * value then newV + divisor else newV

theorem make_divisible_def (v : ℚ) :
    make_divisible v =
      (if ((max 8 (⌊v + 4⌋.fdiv 8 * 8) : ℤ) : ℚ) < 9 / 10 * v
        then max 8 (⌊v + 4⌋.fdiv 8 * 8) + 8
        else max 8 (⌊v + 4⌋.fdiv 8 * 8)) := by
  have harg : v + ((8 : ℤ) : ℚ) / 2 = v + 4 := by push_cast; ring
  simp only [make_divisible, harg]

/-- C9: for every positive value `v`, `make_divisible v` (default divisor 8,
round limit 0.9) is a positive multiple of 8 with
`make_divisible v >= 0.9 * v`; moreover `make_divisible 30 = 32` and
`make_divisible (16 * 0.5) = 8`. -/
theorem c9_make_divisible_bounds (v : ℚ) (hv : 0 < v) :
    (0 < make_divisible v ∧ make_divisible v % 8 = 0
      ∧ (9 / 10 : ℚ) * v ≤ ((make_divisible v : ℤ) : ℚ))
    ∧ make_divisible 30 = 32 ∧ make_divisible (16 * (1 / 2)) = 8 := by
  refine ⟨?_, ?_, ?_⟩
  · rw [make_divisible_def]
    have hfdiv : ⌊v + (4 : ℚ)⌋.fdiv 8 = ⌊v + (4 : ℚ)⌋ / 8 := Int.fdiv_eq_ediv _ (by norm_num)
    have hmlow : (v + 3 : ℚ) < (⌊v + (4 : ℚ)⌋ : ℚ) := by
      have h := Int.sub_one_lt_floor (v + (4 : ℚ))
      linarith
    have hdivge : ⌊v + (4 : ℚ)⌋ - 7 ≤ ⌊v + (4 : ℚ)⌋.fdiv 8 * 8 := by
      rw [hfdiv]; omega
    have h8 : (8 : ℤ) ≤ max 8 (⌊v + (4 : ℚ)⌋.fdiv 8 * 8) := le_max_left _ _
    have hge : ⌊v + (4 : ℚ)⌋.fdiv 8 * 8 ≤ max 8 (⌊v + (4 : ℚ)⌋.fdiv 8 * 8) := le_max_right _ _
    have hmod : max 8 (⌊v + (4 : ℚ)⌋.fdiv 8 * 8) % 8 = 0 := by
      rcases max_choice 8 (⌊v + (4 : ℚ)⌋.fdiv 8 * 8) with h | h <;> rw [h] <;> omega
    have hcastge : (v - 4 : ℚ) < ((max 8 (⌊v + (4 : ℚ)⌋.fdiv 8 * 8) : ℤ) : ℚ) := by
      have h1 : ((⌊v + (4 : ℚ)⌋ - 7 : ℤ) : ℚ) ≤ ((max 8 (⌊v + (4 : ℚ)⌋.fdiv 8 * 8) : ℤ) : ℚ) :=
        Int.cast_le.mpr (le_trans hdivge hge)
      have h2 : (v - 4 : ℚ) < ((⌊v + (4 : ℚ)⌋ - 7 : ℤ) : ℚ) := by push_cast; linarith
      linarith
    split_ifs with hlt
    · refine ⟨by omega, by omega, ?_⟩
      have h3 : ((max 8 (⌊v + (4 : ℚ)⌋.fdiv 8 * 8) + 8 : ℤ) : ℚ)
          = ((max 8 (⌊v + (4 : ℚ)⌋.fdiv 8 * 8) : ℤ) : ℚ) + 8 := by push_cast; ring
      rw [h3]
      linarith
    · exact ⟨by omega, hmod, le_of_not_lt hlt⟩
  · rw [make_divisible_def, show ⌊(30 : ℚ) + 4⌋ = 34 by norm_num,
      show Int.fdiv 34 8 = 4 by rfl]
    norm_num
  · rw [show (16 * (1 / 2) : ℚ) = 8 by norm_num, make_divisible_def,
      show ⌊(8 : ℚ) + 4⌋ = 12 by norm_num, show Int.fdiv 12 8 = 1 by rfl]
    norm_num

/-- Witness for C9 at the concrete input `v = 30`. -/
theorem c9_make_divisible_bounds_witness :
    (0 : ℚ) < 30 ∧
    ((0 < make_divisible 30 ∧ make_divisible 30 % 8 = 0
        ∧ (9 / 10 : ℚ) * 30 ≤ ((make_divisible 30 : ℤ) : ℚ))
      ∧ make_divisible 30 = 32 ∧ make_divisible (16 * (1 / 2)) = 8) :=
  ⟨by norm_num, c9_make_divisible_bounds 30 (by norm_num)⟩

/-- Python `str.lower()` on a whole string, modelled character-wise
(kept kernel-computable, unlike `String.toLower`). -/
def pyLower (s : String) : String :=
  ⟨s.data.map Char.toLower⟩

/-! ## Model registry (model_registry.py) -/

/-- Entry of `MODEL_REGISTRY` (the dict appended by `add_model_to_registry`). -/
structure RegistryInfo where
  name : String
  featureExtractor : Bool
  featureKeys : List String
  weights : Option String
deriving DecidableEq

/-- The `weights` argument of `list_models`: Python `bool` or `str`
(`None` is modelled by `Option` around this type). -/
inductive WFilter where
  | bool (b : Bool)
  | str (s : String)
deriving DecidableEq

/-- Python inequality `info["weights"] != weights` for an optional string
against a bool-or-string filter: values of different types are unequal,
`None` equals nothing here, strings compare by value. -/
def pyWeightsNe : Option String → WFilter → Bool
  | none, _ => true
  | some _, WFilter.bool _ => true
  | some s, WFilter.str q => s != q

/-- Python inequality `weights.lower() != info["weights"]`
(a string against an optional string). -/
def pyStrNeOpt (s : String) : Option String → Bool
  | none => true
  | some t => s != t

/-- Weights-filter stage of `list_models` (model_registry.py lines 113-119):
the `need_remove` decision taken for one entry when the `weights` argument
is not `None`. -/
def weightsNeedRemove (infoWeights : Option String) (weights : WFilter) : Bool :=
  if pyWeightsNe infoWeights weights then
    if weights = WFilter.bool true ∧ infoWeights = none then true
    else if weights = WFilter.bool false ∧ infoWeights ≠ none then true
    else
      match weights with
      | WFilter.str s => pyStrNeOpt (pyLower s) infoWeights
      | WFilter.bool _ => false
  else false

/-- Per-entry `need_remove` decision of `list_models` (all three filters). -/
def needRemove (nameF : Option String) (feF : Option Bool) (wF : Option WFilter)
    (info : RegistryInfo) : Bool :=
  (match nameF with
    | some q => !matchString q info.name
    | none => false)
  || (match feF with
    | some b => info.featureExtractor != b
    | none => false)
  || (match wF with
    | some f => weightsNeedRemove info.weights f
    | none => false)

/-- Embedding of `list_models`: build the Python `set` of names (add each
entry's name, then remove it again when a filter rejects the entry) and
return `sorted(result_names)`. -/
def list_models (registry : List RegistryInfo) (nameF : Option String := none)
    (feF : Option Bool := none) (wF : Option WFilter := none) : List String :=
  (registry.foldl
    (fun (acc : Finset String) info =>
      let acc' := insert info.name acc
      if needRemove nameF feF wF info then acc'.erase info.name else acc')
    ∅).sort (· ≤ ·)

/-- The `weights` argument of `add_model_to_registry`: a string, or some
non-string non-`None` Python value (which trips the `ValueError`). -/
inductive WeightsArg where
  | str (s : String)
  | nonStr
deriving DecidableEq

/-- Mutable state touched by `add_model_to_registry`: the defining module's
`__all__` attribute (`none` when the module has no `__all__` yet) and the
process-wide `MODEL_REGISTRY` list. -/
structure RegState where
  allList : Option (List String)
  registry : List RegistryInfo
deriving DecidableEq

/-- Outcome of one `add_model_to_registry` call: resulting state, the
warnings emitted (`warnings.warn`), and the raised error if any. -/
structure RegisterResult where
  state : RegState
  warnings : List String
  error : Option String
deriving DecidableEq

/-- Embedding of `add_model_to_registry(model_cls, weights)`: first extend
(or create) the module's `__all__`; then warn once per existing entry with
the same name; then validate `weights`, raising `ValueError` for a
non-string non-`None` value and lowercasing a string; finally append the
new entry. The class-derived inputs (`model_cls.__name__`,
`issubclass`-based feature data) are parameters. -/
def add_model_to_registry (st : RegState) (modelName : String) (featureExtractor : Bool)
    (featureKeys : List String) (weights : Option WeightsArg) : RegisterResult :=
  let allList' : List String :=
    match st.allList with
    | some l => l ++ [modelName]
    | none => [modelName]
  let warns : List String :=
    (st.registry.filter fun info => info.name == modelName).map
      (fun _ => "MODEL_REGISTRY already contains name=" ++ modelName ++ "!")
  match weights with
  | some WeightsArg.nonStr =>
    { state := { allList := some allList', registry := st.registry },
      warnings := warns,
      error := some "weights must be one of (None, str)." }
  | some (WeightsArg.str s) =>
    { state := { allList := some allList',
                 registry := st.registry ++
                   [{ name := modelName, featureExtractor := featureExtractor,
                      featureKeys := featureKeys, weights := some (pyLower s) }] },
      warnings := warns, error := none }
  | none =>
    { state := { allList := some allList',
                 registry := st.registry ++
                   [{ name := modelName, featureExtractor := featureExtractor,
                      featureKeys := featureKeys, weights := none }] },
      warnings := warns, error := none }

/-- C4: under the invariant established by registration (each entry's
weights tag is `None` or a lowercase string), the weights filter of
`list_models` keeps exactly: `True` → entries with a non-null tag; `False`
→ entries with a null tag; a string → entries whose tag equals it
case-insensitively. On a one-entry registry, `list_models` returns the name
iff the filter keeps the entry. -/
theorem c4_list_models_weights_filter (iw : Option String)
    (hinv : ∀ t, iw = some t → pyLower t = t) :
    (weightsNeedRemove iw (WFilter.bool true) = false ↔ iw ≠ none)
    ∧ (weightsNeedRemove iw (WFilter.bool false) = false ↔ iw = none)
    ∧ (∀ q : String,
        weightsNeedRemove iw (WFilter.str q) = false
          ↔ ∃ t, iw = some t ∧ pyLower q = pyLower t)
    ∧ (∀ (nm : String) (fe : Bool) (fk : List String) (f : WFilter),
        list_models [⟨nm, fe, fk, iw⟩] none none (some f)
          = if weightsNeedRemove iw f then [] else [nm]) := by
  refine ⟨?_, ?_, ?_, ?_⟩
  · cases iw with
    | none => simp [weightsNeedRemove, pyWeightsNe]
    | some t => simp [weightsNeedRemove, pyWeightsNe]
  · cases iw with
    | none => simp [weightsNeedRemove, pyWeightsNe]
    | some t => simp [weightsNeedRemove, pyWeightsNe]
  · intro q
    cases iw with
    | none => simp [weightsNeedRemove, pyWeightsNe, pyStrNeOpt]
    | some t =>
      have ht : pyLower t = t := hinv t rfl
      by_cases hq : t = q
      · subst hq
        simp [weightsNeedRemove, pyWeightsNe, pyStrNeOpt, ht]
      · simp only [weightsNeedRemove, pyWeightsNe]
        rw [if_pos (by simp [bne_iff_ne]; exact hq)]
        rw [if_neg (show ¬(WFilter.str q = WFilter.bool true ∧ (some t : Option String) = none)
              by simp)]
        rw [if_neg (show ¬(WFilter.str q = WFilter.bool false ∧ (some t : Option String) ≠ none)
              by simp)]
        simp only [pyStrNeOpt, bne_eq_false_iff_eq]
        constructor
        · intro h
          exact ⟨t, rfl, by rw [ht]; exact h⟩
        · rintro ⟨t', ht', h⟩
          cases ht'
          rw [ht] at h
          exact h
  · intro nm fe fk f
    simp only [list_models, List.foldl_cons, List.foldl_nil, needRemove]
    by_cases hrem : weightsNeedRemove iw f
    · simp [hrem]
    · simp [hrem]

/-- Witness for C4 at the concrete tag `some "imagenet"`. -/
theorem c4_list_models_weights_filter_witness :
    (∀ t : String, (some "imagenet" : Option String) = some t → pyLower t = t)
    ∧ ((weightsNeedRemove (some "imagenet") (WFilter.bool true) = false
          ↔ (some "imagenet" : Option String) ≠ none)
      ∧ (weightsNeedRemove (some "imagenet") (WFilter.bool false) = false
          ↔ (some "imagenet" : Option String) = none)
      ∧ (∀ q : String,
          weightsNeedRemove (some "imagenet") (WFilter.str q) = false
            ↔ ∃ t, (some "imagenet" : Option String) = some t ∧ pyLower q = pyLower t)
      ∧ (∀ (nm : String) (fe : Bool) (fk : List String) (f : WFilter),
          list_models [⟨nm, fe, fk, some "imagenet"⟩] none none (some f)
            = if weightsNeedRemove (some "imagenet") f then [] else [nm])) := by
  have hinv : ∀ t : String, (some "imagenet" : Option String) = some t → pyLower t = t := by
    intro t ht
    cases ht
    decide
  exact ⟨hinv, c4_list_models_weights_filter (some "imagenet") hinv⟩

theorem list_models_nodup (reg : List RegistryInfo) (nf : Option String) (ff : Option Bool)
    (wf : Option WFilter) : (list_models reg nf ff wf).Nodup :=
  Finset.sort_nodup _ _

theorem list_models_sorted (reg : List RegistryInfo) (nf : Option String) (ff : Option Bool)
    (wf : Option WFilter) : (list_models reg nf ff wf).Sorted (· ≤ ·) :=
  Finset.sort_sorted _ _

theorem add_model_valid (st : RegState) (modelName : String) (fe : Bool)
    (fk : List String) :
    ∀ w, (w = none ∨ ∃ s, w = some (WeightsArg.str s)) →
      (add_model_to_registry st modelName fe fk w).error = none
      ∧ (add_model_to_registry st modelName fe fk w).warnings.length
          = st.registry.countP (fun i => i.name == modelName)
      ∧ ∃ entry, (add_model_to_registry st modelName fe fk w).state.registry
          = st.registry ++ [entry] ∧ entry.name = modelName := by
  rintro w (rfl | ⟨s, rfl⟩) <;>
    exact ⟨rfl,
      by simp [add_model_to_registry, List.countP_eq_length_filter],
      ⟨_, rfl, rfl⟩⟩

/-- C7: registering a name already present in the registry raises no error,
emits at least one warning, and still appends the new entry, so the registry
afterwards holds (at least) two entries with that name; any subsequent
`list_models` call nevertheless returns each name at most once, in
lexicographically sorted order. -/
theorem c7_duplicate_registration (st : RegState) (modelName : String) (fe : Bool)
    (fk : List String) (w : Option WeightsArg) (nf : Option String) (ff : Option Bool)
    (wf : Option WFilter)
    (hdup : st.registry.any (fun i => i.name == modelName) = true)
    (hw : w = none ∨ ∃ s, w = some (WeightsArg.str s)) :
    (add_model_to_registry st modelName fe fk w).error = none
    ∧ (add_model_to_registry st modelName fe fk w).warnings ≠ []
    ∧ (∃ entry, (add_model_to_registry st modelName fe fk w).state.registry
          = st.registry ++ [entry] ∧ entry.name = modelName)
    ∧ 2 ≤ ((add_model_to_registry st modelName fe fk w).state.registry.countP
          (fun i => i.name == modelName))
    ∧ (list_models (add_model_to_registry st modelName fe fk w).state.registry nf ff wf).Nodup
    ∧ (list_models (add_model_to_registry st modelName fe fk w).state.registry
          nf ff wf).Sorted (· ≤ ·) := by
  obtain ⟨herr, hwarnlen, entry, hreg, hname⟩ := add_model_valid st modelName fe fk w hw
  have hcount : 0 < st.registry.countP (fun i => i.name == modelName) := by
    rw [List.countP_pos_iff]
    rw [List.any_eq_true] at hdup
    exact hdup
  refine ⟨herr, ?_, ⟨entry, hreg, hname⟩, ?_, list_models_nodup _ _ _ _,
    list_models_sorted _ _ _ _⟩
  · intro hnil
    rw [hnil] at hwarnlen
    simp at hwarnlen
    omega
  · rw [hreg, List.countP_append, List.countP_cons, List.countP_nil]
    rw [show (entry.name == modelName) = true from by rw [hname]; exact beq_self_eq_true _]
    rw [if_pos rfl]
    omega

/-- Concrete one-entry registry state, used to witness C7. -/
def sampleRegState : RegState :=
  { allList := none, registry := [⟨"Foo", true, ["A"], some "imagenet"⟩] }

/-- Witness for C7: re-registering `"Foo"` into a registry that already
holds `"Foo"`. -/
theorem c7_duplicate_registration_witness :
    sampleRegState.registry.any (fun i => i.name == "Foo") = true
    ∧ ((add_model_to_registry sampleRegState "Foo" true ["A"] none).error = none
      ∧ (add_model_to_registry sampleRegState "Foo" true ["A"] none).warnings ≠ []
      ∧ (∃ entry, (add_model_to_registry sampleRegState "Foo" true ["A"] none).state.registry
            = sampleRegState.registry ++ [entry] ∧ entry.name = "Foo")
      ∧ 2 ≤ ((add_model_to_registry sampleRegState "Foo" true ["A"] none).state.registry.countP
            (fun i => i.name == "Foo"))
      ∧ (list_models (add_model_to_registry sampleRegState "Foo" true ["A"] none).state.registry
            none none none).Nodup
      ∧ (list_models (add_model_to_registry sampleRegState "Foo" true ["A"] none).state.registry
            none none none).Sorted (· ≤ ·)) :=
  ⟨by decide,
    c7_duplicate_registration sampleRegState "Foo" true ["A"] none none none none
      (by decide) (Or.inl rfl)⟩

/-- C10: `add_model_to_registry` extends the defining module's `__all__`
(creating it if absent) before validating `weights`; a call whose `weights`
is neither `None` nor a string raises `ValueError`, leaves `MODEL_REGISTRY`
unchanged, and has nevertheless already appended the class name to that
module's `__all__`. -/
theorem c10_all_extended_before_weights_validation (st : RegState) (modelName : String)
    (fe : Bool) (fk : List String) :
    (∀ w : Option WeightsArg,
        (add_model_to_registry st modelName fe fk w).state.allList
          = some (st.allList.getD [] ++ [modelName]))
    ∧ (add_model_to_registry st modelName fe fk (some WeightsArg.nonStr)).error
        = some "weights must be one of (None, str)."
    ∧ (add_model_to_registry st modelName fe fk (some WeightsArg.nonStr)).state.registry
        = st.registry := by
  refine ⟨?_, rfl, rfl⟩
  intro w
  cases h : st.allList <;> rcases w with _ | (s | _) <;> simp [add_model_to_registry, h]

/-! ## Block builders (depthwise_separation.py, inverted_residual.py)

The convolution/SE layers inside the builders are opaque tensor operations;
the embedding keeps the data the builders themselves decide on: the input
channel count (`inputs.shape[channels_axis]`), the requested output channel
count, the stride, the skip decision, and the `ValueError` raised by the
depthwise-separation builder. -/

/-- Shape-level outcome of a block-builder call: whether the builder added
the input back onto its output (`layers.Add`), and the channel count of the
returned tensor. -/
structure BuilderResult where
  addsSkip : Bool
  outChannels : ℤ
deriving DecidableEq

/-- Embedding of `apply_depthwise_separation_block` (lines 30-38 and 70-71):
raises when `has_skip=True` while `strides != 1` or the input channel count
differs from `filters`; otherwise returns `filters` channels and adds the
skip connection exactly when `has_skip`. -/
def apply_depthwise_separation_block (inputFilters filters : ℤ) (strides : ℕ)
    (hasSkip : Bool) : Except String BuilderResult :=
  if hasSkip = true ∧ (strides ≠ 1 ∨ inputFilters ≠ filters) then
    Except.error ("If `has_skip=True`, strides must be 1 and `filters` must be the same "
      ++ "as input_filters.")
  else
    Except.ok { addsSkip := hasSkip, outChannels := filters }

/-- Embedding of `apply_inverted_residual_block` (lines 32-35): no `has_skip`
flag; the skip connection is inferred as
`strides == 1 and input_channels == filters` and never raises. -/
def apply_inverted_residual_block (inputChannels filters : ℤ) (strides : ℕ) : BuilderResult :=
  { addsSkip := strides == 1 && inputChannels == filters, outChannels := filters }

/-- C8: a depthwise-separation builder call with `has_skip=True` fails
exactly when the stride is not 1 or the input channel count differs from the
requested output channel count; when it succeeds it adds the skip, and then
input channels equal output channels and the stride is 1; with
`has_skip=False` it never fails and never adds the skip; the
inverted-residual builder adds its input to its output iff input channels
equal output channels and the stride is 1. -/
theorem c8_skip_connection_policy :
    (∀ (ic f : ℤ) (s : ℕ),
        (apply_depthwise_separation_block ic f s true).isOk = (s == 1 && ic == f))
    ∧ (∀ (ic f : ℤ) (s : ℕ),
        (apply_depthwise_separation_block ic f s true).toOption.map
            (fun r => r.addsSkip)
          = if s = 1 ∧ ic = f then some true else none)
    ∧ (∀ (ic f : ℤ) (s : ℕ),
        apply_depthwise_separation_block ic f s false
          = Except.ok { addsSkip := false, outChannels := f })
    ∧ (∀ (ic f : ℤ) (s : ℕ),
        (apply_inverted_residual_block ic f s).addsSkip = (s == 1 && ic == f)) := by
  refine ⟨?_, ?_, ?_, ?_⟩
  · intro ic f s
    by_cases h1 : s = 1 <;> by_cases h2 : ic = f <;>
      simp [apply_depthwise_separation_block, Except.isOk, Except.toBool, h1, h2]
  · intro ic f s
    by_cases h1 : s = 1 <;> by_cases h2 : ic = f <;>
      simp [apply_depthwise_separation_block, Except.toOption, h1, h2]
  · intro ic f s
    simp [apply_depthwise_separation_block]
  · intro ic f s
    rfl

/-! ## Architecture compiler (mobilenet_v3.py, `MobileNetV3.__init__`)

Embedding of the stage-configuration expansion loop (lines 144-229 of
kimm/_src/models/mobilenet_v3.py; the kimm/models copy has the same loop).
The tensor `x` is tracked by its channel count plus the ordered trace of
block applications; the classification head (below the loop) is outside the
embedded fragment since no claim concerns it. -/

/-- One row of the stage configuration:
`[block_type, repeat, kernel_size, strides, expansion_ratio, channels,
se_ratio, activation]`. -/
structure BlockSpec where
  blockType : String
  r : ℕ
  k : ℕ
  s : ℕ
  e : ℚ
  c : ℕ
  se : ℚ
  act : String
deriving DecidableEq

/-- A stage configuration: a list of stages, each a list of `BlockSpec`s. -/
abbrev ModelConfig := List (List BlockSpec)

/-- The `minimal`-derived settings (mobilenet_v3.py lines 115-122):
`force_activation`, `force_kernel_size`, `no_se`. -/
structure MinimalSettings where
  forceActivation : Option String
  forceKernelSize : Option ℕ
  noSe : Bool
deriving DecidableEq

/-- `minimal=True` forces activation `"relu"`, kernel-size ceiling 3, and
suppresses squeeze-excitation; `minimal=False` forces nothing. -/
def minimalSettings : Bool → MinimalSettings
  | true => ⟨some "relu", some 3, true⟩
  | false => ⟨none, none, false⟩

/-- Per-`BlockSpec` effective parameters (lines 166-174): the minimal-mode
overrides of activation, kernel size and se-ratio, and the rounded channel
count `c = make_divisible(c * width)` (computed from the original channel
value, untouched by the overrides). -/
structure EffectiveParams where
  act : String
  k : ℕ
  se : ℚ
  c : ℤ
deriving DecidableEq

/-- Compute the effective parameters of one `BlockSpec`. -/
def effectiveParams (ms : MinimalSettings) (width : ℚ) (spec : BlockSpec) : EffectiveParams :=
  { act := ms.forceActivation.getD spec.act,
    k := match ms.forceKernelSize with
      | some fk => if spec.k > fk then fk else spec.k
      | none => spec.k,
    se := if ms.noSe then 0 else spec.se,
    c := make_divisible ((spec.c : ℚ) * width) }

/-- Effective repeat count (lines 175-177): scaled by
`int(math.ceil(r * depth))` unless `current_block_idx in
(0, len(_config) - 1)` — note the comparison is against the number of
STAGES minus one (`len(_config) - 1`), exactly as the source writes it. -/
def effectiveRepeat (numStages : ℕ) (blockIdx : ℕ) (r : ℕ) (depth : ℚ) : ℕ :=
  if blockIdx ≠ 0 ∧ blockIdx ≠ numStages - 1 then (⌈(r : ℚ) * depth⌉).toNat else r

/-- Stride of repetition `j` of a block (line 179): the spec's stride for
`j = 0`, else 1. -/
def layerStride (s : ℕ) (j : ℕ) : ℕ :=
  if j = 0 then s else 1

/-- One recorded block application (the call the compiler dispatches to a
block builder, shape-level data only). -/
structure BlockOp where
  kind : String
  channels : ℤ
  kernel : ℕ
  stride : ℕ
  expansion : ℚ
  se : ℚ
  act : String
  hasSkip : Bool
  name : String
deriving DecidableEq

/-- Compiler state while expanding the configuration: channel count of the
running tensor `x`, `current_stride`, the trace of block applications, and
the recorded feature-tap keys in insertion order. -/
structure CompileState where
  channels : ℤ
  stride : ℕ
  trace : List BlockOp
  features : List String
deriving DecidableEq

instance : Inhabited CompileState :=
  ⟨⟨0, 0, [], []⟩⟩

/-- The recognized block kinds of the dispatch chain (lines 188-227). -/
def isRecognizedKind (bt : String) : Bool :=
  bt == "ds" || bt == "dsa" || bt == "ir" || bt == "cn"

/-- One iteration of the inner layer loop (lines 180-228): dispatch on
`block_type` — `"ds"`/`"dsa"` call the depthwise-separation builder (with
the inferred resp. disabled `has_skip`), `"ir"` the inverted-residual
builder, `"cn"` a plain conv block; any other kind falls through the
`if/elif` chain and applies nothing. `current_stride *= s` runs in every
case, after the chain. -/
def applyBlock (st : CompileState) (blockType : String) (c : ℤ) (k : ℕ) (s : ℕ)
    (e se : ℚ) (act : String) (name : String) : Except String CompileState :=
  if blockType = "ds" ∨ blockType = "dsa" then
    let hasSkip : Bool := if blockType = "dsa" then false else st.channels == c && s == 1
    match apply_depthwise_separation_block st.channels c s hasSkip with
    | Except.error msg => Except.error msg
    | Except.ok res =>
      Except.ok { channels := res.outChannels, stride := st.stride * s,
                  trace := st.trace ++ [⟨blockType, c, k, s, e, se, act, res.addsSkip, name⟩],
                  features := st.features }
  else if blockType = "ir" then
    let res := apply_inverted_residual_block st.channels c s
    Except.ok { channels := res.outChannels, stride := st.stride * s,
                trace := st.trace ++ [⟨blockType, c, k, s, e, se, act, res.addsSkip, name⟩],
                features := st.features }
  else if blockType = "cn" then
    Except.ok { channels := c, stride := st.stride * s,
                trace := st.trace ++ [⟨blockType, c, k, s, e, se, act, false, name⟩],
                features := st.features }
  else
    Except.ok { st with stride := st.stride * s }

/-- Expansion of one `BlockSpec` (lines 163-228): compute effective
parameters and repeat count, then run the layer loop. -/
def applySpec (numStages : ℕ) (width depth : ℚ) (ms : MinimalSettings)
    (stageIdx blockIdx : ℕ) (spec : BlockSpec) (st : CompileState) :
    Except String CompileState :=
  let p := effectiveParams ms width spec
  (List.range (effectiveRepeat numStages blockIdx spec.r depth)).foldlM
    (fun st j =>
      applyBlock st spec.blockType p.c p.k (layerStride spec.s j) spec.e p.se p.act
        ("blocks_" ++ toString stageIdx ++ "_" ++ toString (blockIdx + j)))
    st

/-- Expansion of one stage (lines 162-229): expand each `BlockSpec` in
order, then record the stage's feature tap
`BLOCK{stage_idx}_S{current_stride}`. -/
def applyStage (numStages : ℕ) (width depth : ℚ) (ms : MinimalSettings)
    (st : CompileState) (stage : ℕ × List BlockSpec) : Except String CompileState := do
  let st' ← stage.2.enum.foldlM
    (fun st p => applySpec numStages width depth ms stage.1 p.1 p.2 st) st
  pure { st' with
    features := st'.features ++ ["BLOCK" ++ toString stage.1 ++ "_S" ++ toString st'.stride] }

/-- Embedding of the configuration-to-graph compilation (stem channels line
145-147, stem tap `STEM_S2` line 158, `current_stride = 2` line 161, then
the stage loop). -/
def compileMobileNetV3 (config : ModelConfig) (width depth : ℚ)
    (minimal fixStemAndHead : Bool) : Except String CompileState :=
  let ms := minimalSettings minimal
  let stemChannel : ℤ := if fixStemAndHead then 16 else make_divisible (16 * width)
  config.enum.foldlM (applyStage config.length width depth ms)
    { channels := stemChannel, stride := 2, trace := [], features := ["STEM_S2"] }

/-- The compiled state (total function; the compilation never raises, as
proved below). -/
def compileOk (config : ModelConfig) (width depth : ℚ)
    (minimal fixStemAndHead : Bool) : CompileState :=
  (compileMobileNetV3 config width depth minimal fixStemAndHead).toOption.getD default

theorem ds_infer_ok (ch c : ℤ) (s : ℕ) :
    apply_depthwise_separation_block ch c s (ch == c && s == 1)
      = Except.ok ⟨ch == c && s == 1, c⟩ := by
  by_cases h1 : ch = c <;> by_cases h2 : s = 1 <;>
    simp [apply_depthwise_separation_block, h1, h2]

theorem ds_false_ok (ch c : ℤ) (s : ℕ) :
    apply_depthwise_separation_block ch c s false = Except.ok ⟨false, c⟩ := by
  simp [apply_depthwise_separation_block]

theorem applyBlock_spec (st : CompileState) (bt : String) (c : ℤ) (k s : ℕ)
    (e se : ℚ) (act name : String) :
    ∃ st', applyBlock st bt c k s e se act name = Except.ok st'
      ∧ st'.stride = st.stride * s
      ∧ st'.features = st.features
      ∧ ((isRecognizedKind bt = false ∧ st'.trace = st.trace ∧ st'.channels = st.channels)
        ∨ (isRecognizedKind bt = true ∧ st'.channels = c
            ∧ ∃ hs, st'.trace = st.trace ++ [⟨bt, c, k, s, e, se, act, hs, name⟩])) := by
  by_cases hds : bt = "ds"
  · subst hds
    have heq : applyBlock st "ds" c k s e se act name
        = Except.ok ⟨c, st.stride * s,
            st.trace ++ [⟨"ds", c, k, s, e, se, act, st.channels == c && s == 1, name⟩],
            st.features⟩ := by
      rw [applyBlock, if_pos (Or.inl rfl)]
      simp only [if_neg (show ¬("ds" = "dsa") by decide), ds_infer_ok]
    exact ⟨_, heq, rfl, rfl, Or.inr ⟨by decide, rfl, ⟨_, rfl⟩⟩⟩
  · by_cases hdsa : bt = "dsa"
    · subst hdsa
      have heq : applyBlock st "dsa" c k s e se act name
          = Except.ok ⟨c, st.stride * s,
              st.trace ++ [⟨"dsa", c, k, s, e, se, act, false, name⟩], st.features⟩ := by
        rw [applyBlock, if_pos (Or.inr rfl)]
        simp [ds_false_ok]
      exact ⟨_, heq, rfl, rfl, Or.inr ⟨by decide, rfl, ⟨_, rfl⟩⟩⟩
    · by_cases hir : bt = "ir"
      · subst hir
        have heq : applyBlock st "ir" c k s e se act name
            = Except.ok ⟨c, st.stride * s,
                st.trace ++ [⟨"ir", c, k, s, e, se, act, s == 1 && st.channels == c, name⟩],
                st.features⟩ := by
          rw [applyBlock, if_neg (by simp), if_pos rfl]
          rfl
        exact ⟨_, heq, rfl, rfl, Or.inr ⟨by decide, rfl, ⟨_, rfl⟩⟩⟩
      · by_cases hcn : bt = "cn"
        · subst hcn
          have heq : applyBlock st "cn" c k s e se act name
              = Except.ok ⟨c, st.stride * s,
                  st.trace ++ [⟨"cn", c, k, s, e, se, act, false, name⟩], st.features⟩ := by
            rw [applyBlock, if_neg (by simp), if_neg (by simp), if_pos rfl]
          exact ⟨_, heq, rfl, rfl, Or.inr ⟨by decide, rfl, ⟨_, rfl⟩⟩⟩
        · have heq : applyBlock st bt c k s e se act name
              = Except.ok { st with stride := st.stride * s } := by
            rw [applyBlock, if_neg (by simp [hds, hdsa]), if_neg hir, if_neg hcn]
          exact ⟨_, heq, rfl, rfl,
            Or.inl ⟨by simp [isRecognizedKind, hds, hdsa, hir, hcn], rfl, rfl⟩⟩

theorem foldl_mul_init (g : ℕ → ℕ) : ∀ (l : List ℕ) (x y : ℕ),
    l.foldl (fun a j => a * g j) (x * y) = x * l.foldl (fun a j => a * g j) y := by
  intro l
  induction l with
  | nil => intro x y; simp
  | cons a l ih =>
    intro x y
    simp only [List.foldl_cons]
    rw [mul_assoc, ih]

theorem layerFold_spec (bt : String) (c : ℤ) (k : ℕ) (s : ℕ) (e se : ℚ) (act : String)
    (nm : ℕ → String) :
    ∀ (js : List ℕ) (st : CompileState),
      ∃ st', js.foldlM (fun st j => applyBlock st bt c k (layerStride s j) e se act (nm j)) st
          = Except.ok st'
        ∧ st'.features = st.features
        ∧ st'.stride = st.stride * js.foldl (fun a j => a * layerStride s j) 1
        ∧ ∃ ops, st'.trace = st.trace ++ ops
          ∧ (∀ op ∈ ops, op.kind = bt ∧ op.channels = c ∧ op.kernel = k
              ∧ op.se = se ∧ op.act = act ∧ op.expansion = e)
          ∧ (isRecognizedKind bt = true → ops.length = js.length)
          ∧ (isRecognizedKind bt = false → ops = []) := by
  intro js
  induction js with
  | nil =>
    intro st
    refine ⟨st, rfl, rfl, by simp, [], by simp, by simp, ?_, ?_⟩
    · intro _; simp
    · intro _; rfl
  | cons j js ih =>
    intro st
    obtain ⟨st1, heq1, hstr1, hfeat1, hd1⟩ :=
      applyBlock_spec st bt c k (layerStride s j) e se act (nm j)
    obtain ⟨st2, heq2, hf2, hs2, ops2, ht2, hprop2, hlen2, hnil2⟩ := ih st1
    have heqfold : (j :: js).foldlM
        (fun st j => applyBlock st bt c k (layerStride s j) e se act (nm j)) st
          = Except.ok st2 := by
      rw [List.foldlM_cons, heq1]
      exact heq2
    have hstride : st2.stride
        = st.stride * (j :: js).foldl (fun a j => a * layerStride s j) 1 := by
      rw [hs2, hstr1]
      simp only [List.foldl_cons, one_mul]
      rw [show js.foldl (fun a j => a * layerStride s j) (layerStride s j)
            = js.foldl (fun a j => a * layerStride s j) (layerStride s j * 1) by rw [mul_one],
        foldl_mul_init, mul_assoc]
    rcases hd1 with ⟨hrec, htr1, _⟩ | ⟨hrec, hch1, hs, htr1⟩
    · refine ⟨st2, heqfold, by rw [hf2, hfeat1], hstride, ops2, by rw [ht2, htr1], hprop2, ?_, ?_⟩
      · intro h; rw [hrec] at h; cases h
      · intro _; exact hnil2 hrec
    · refine ⟨st2, heqfold, by rw [hf2, hfeat1], hstride,
        ⟨bt, c, k, layerStride s j, e, se, act, hs, nm j⟩ :: ops2, ?_, ?_, ?_, ?_⟩
      · rw [ht2, htr1, List.append_assoc]
        rfl
      · intro op hop
        rcases List.mem_cons.mp hop with rfl | hop
        · exact ⟨rfl, rfl, rfl, rfl, rfl, rfl⟩
        · exact hprop2 op hop
      · intro h
        simp only [List.length_cons, hlen2 h]
      · intro h; rw [hrec] at h; cases h

/-- Stride contribution of one expanded `BlockSpec` to `current_stride`:
the product of the applied per-repetition strides. -/
def specStrideFactor (numStages blockIdx : ℕ) (spec : BlockSpec) (depth : ℚ) : ℕ :=
  (List.range (effectiveRepeat numStages blockIdx spec.r depth)).foldl
    (fun acc j => acc * layerStride spec.s j) 1

/-- A recorded block application carries exactly the effective parameters of
the `BlockSpec` it was expanded from. -/
def OpMatches (ms : MinimalSettings) (width : ℚ) (spec : BlockSpec) (op : BlockOp) : Prop :=
  op.kind = spec.blockType
  ∧ op.channels = (effectiveParams ms width spec).c
  ∧ op.kernel = (effectiveParams ms width spec).k
  ∧ op.se = (effectiveParams ms width spec).se
  ∧ op.act = (effectiveParams ms width spec).act

theorem applySpec_spec (numStages : ℕ) (width depth : ℚ) (ms : MinimalSettings)
    (stageIdx blockIdx : ℕ) (spec : BlockSpec) (st : CompileState) :
    ∃ st', applySpec numStages width depth ms stageIdx blockIdx spec st = Except.ok st'
      ∧ st'.features = st.features
      ∧ st'.stride = st.stride * specStrideFactor numStages blockIdx spec depth
      ∧ ∃ ops, st'.trace = st.trace ++ ops
        ∧ (∀ op ∈ ops, OpMatches ms width spec op ∧ isRecognizedKind op.kind = true)
        ∧ (isRecognizedKind spec.blockType = true →
            ops.length = effectiveRepeat numStages blockIdx spec.r depth)
        ∧ (isRecognizedKind spec.blockType = false → ops = []) := by
  obtain ⟨st', heq, hf, hs, ops, ht, hprop, hlen, hnil⟩ :=
    layerFold_spec spec.blockType (effectiveParams ms width spec).c
      (effectiveParams ms width spec).k spec.s spec.e (effectiveParams ms width spec).se
      (effectiveParams ms width spec).act
      (fun j => "blocks_" ++ toString stageIdx ++ "_" ++ toString (blockIdx + j))
      (List.range (effectiveRepeat numStages blockIdx spec.r depth)) st
  refine ⟨st', heq, hf, hs, ops, ht, ?_, ?_, hnil⟩
  · intro op hop
    obtain ⟨hk, hc, hkr, hse, hact, hex⟩ := hprop op hop
    by_cases hrec : isRecognizedKind spec.blockType = true
    · exact ⟨⟨hk, hc, hkr, hse, hact⟩, by rw [hk]; exact hrec⟩
    · rw [hnil (by simpa using hrec)] at hop
      cases hop
  · intro h
    rw [hlen h, List.length_range]

/-- Number of block applications one enumerated `BlockSpec` contributes to
the trace (zero for an unrecognized kind, which is silently skipped). -/
def specBlockCount (numStages : ℕ) (depth : ℚ) (p : ℕ × BlockSpec) : ℕ :=
  if isRecognizedKind p.2.blockType then effectiveRepeat numStages p.1 p.2.r depth else 0

theorem specFold_spec (numStages : ℕ) (width depth : ℚ) (ms : MinimalSettings)
    (stageIdx : ℕ) :
    ∀ (entries : List (ℕ × BlockSpec)) (st : CompileState),
      ∃ st', entries.foldlM
          (fun st p => applySpec numStages width depth ms stageIdx p.1 p.2 st) st
            = Except.ok st'
        ∧ st'.features = st.features
        ∧ st'.stride = st.stride
            * (entries.map (fun p => specStrideFactor numStages p.1 p.2 depth)).prod
        ∧ ∃ ops, st'.trace = st.trace ++ ops
          ∧ (∀ op ∈ ops, ∃ p ∈ entries, OpMatches ms width p.2 op
              ∧ isRecognizedKind op.kind = true)
          ∧ ops.length = (entries.map (specBlockCount numStages depth)).sum := by
  intro entries
  induction entries with
  | nil =>
    intro st
    exact ⟨st, rfl, rfl, by simp, [], by simp, by simp, by simp⟩
  | cons p rest ih =>
    intro st
    obtain ⟨st1, heq1, hfeat1, hstr1, ops1, htr1, hprop1, hlen1, hnil1⟩ :=
      applySpec_spec numStages width depth ms stageIdx p.1 p.2 st
    obtain ⟨st2, heq2, hfeat2, hstr2, ops2, htr2, hprop2, hlen2⟩ := ih st1
    have heqfold : (p :: rest).foldlM
        (fun st p => applySpec numStages width depth ms stageIdx p.1 p.2 st) st
          = Except.ok st2 := by
      rw [List.foldlM_cons, heq1]
      exact heq2
    refine ⟨st2, heqfold, by rw [hfeat2, hfeat1], ?_, ops1 ++ ops2, ?_, ?_, ?_⟩
    · rw [hstr2, hstr1, List.map_cons, List.prod_cons, mul_assoc]
    · rw [htr2, htr1, List.append_assoc]
    · intro op hop
      rcases List.mem_append.mp hop with hop | hop
      · obtain ⟨hm, hr⟩ := hprop1 op hop
        exact ⟨p, List.mem_cons_self p rest, hm, hr⟩
      · obtain ⟨q, hq, hm, hr⟩ := hprop2 op hop
        exact ⟨q, List.mem_cons_of_mem p hq, hm, hr⟩
    · rw [List.length_append, hlen2, List.map_cons, List.sum_cons]
      congr 1
      by_cases hrec : isRecognizedKind p.2.blockType = true
      · rw [hlen1 hrec, specBlockCount, if_pos hrec]
      · rw [hnil1 (by simpa using hrec), specBlockCount, if_neg (by simpa using hrec)]
        rfl

/-- Stride contribution of a whole stage to `current_stride`. -/
def stageStrideFactor (numStages : ℕ) (depth : ℚ) (cfg : List BlockSpec) : ℕ :=
  (cfg.enum.map (fun p => specStrideFactor numStages p.1 p.2 depth)).prod

/-- Number of block applications a whole stage contributes to the trace. -/
def stageBlockCount (numStages : ℕ) (depth : ℚ) (cfg : List BlockSpec) : ℕ :=
  (cfg.enum.map (specBlockCount numStages depth)).sum

theorem applyStage_spec (numStages : ℕ) (width depth : ℚ) (ms : MinimalSettings)
    (st : CompileState) (i : ℕ) (cfg : List BlockSpec) :
    ∃ st', applyStage numStages width depth ms st (i, cfg) = Except.ok st'
      ∧ st'.features = st.features
          ++ ["BLOCK" ++ toString i ++ "_S"
              ++ toString (st.stride * stageStrideFactor numStages depth cfg)]
      ∧ st'.stride = st.stride * stageStrideFactor numStages depth cfg
      ∧ ∃ ops, st'.trace = st.trace ++ ops
        ∧ (∀ op ∈ ops, ∃ spec ∈ cfg, OpMatches ms width spec op
            ∧ isRecognizedKind op.kind = true)
        ∧ ops.length = stageBlockCount numStages depth cfg := by
  obtain ⟨st1, heq1, hfeat1, hstr1, ops1, htr1, hprop1, hlen1⟩ :=
    specFold_spec numStages width depth ms i cfg.enum st
  refine ⟨{ st1 with features := st1.features
      ++ ["BLOCK" ++ toString i ++ "_S" ++ toString st1.stride] }, ?_, ?_, hstr1, ops1,
    htr1, ?_, hlen1⟩
  · rw [applyStage, heq1]
    rfl
  · rw [hfeat1, hstr1]
    rfl
  · intro op hop
    obtain ⟨p, hp, hm, hr⟩ := hprop1 op hop
    refine ⟨p.2, ?_, hm, hr⟩
    have := List.mem_map_of_mem Prod.snd hp
    rwa [List.enum_map_snd] at this

/-- Feature-tap keys of the stages, written from the spec's words: the
cumulative stride starts at the stem value, is multiplied by each applied
block stride of the stage (the `BlockSpec` stride at repetition 0, stride 1
afterwards), is never reset, and each stage records
`BLOCK{stage_idx}_S{cumulative_stride}`. -/
def specKeysAux (numStages : ℕ) (depth : ℚ) : ℕ → ℕ → List (List BlockSpec) → List String
  | _, _, [] => []
  | i, cum, cfg :: rest =>
    ("BLOCK" ++ toString i ++ "_S"
        ++ toString (cum * stageStrideFactor numStages depth cfg))
      :: specKeysAux numStages depth (i + 1) (cum * stageStrideFactor numStages depth cfg) rest

/-- All feature-tap keys of a compilation, per the spec: `STEM_S2` then the
per-stage keys under the running stride product started at 2. -/
def specFeatureKeys (config : ModelConfig) (depth : ℚ) : List String :=
  "STEM_S2" :: specKeysAux config.length depth 0 2 config

theorem stagesFold_spec (numStages : ℕ) (width depth : ℚ) (ms : MinimalSettings) :
    ∀ (stages : List (List BlockSpec)) (i : ℕ) (st : CompileState),
      ∃ st', (List.enumFrom i stages).foldlM (applyStage numStages width depth ms) st
          = Except.ok st'
        ∧ st'.features = st.features ++ specKeysAux numStages depth i st.stride stages
        ∧ st'.stride = st.stride * (stages.map (stageStrideFactor numStages depth)).prod
        ∧ ∃ ops, st'.trace = st.trace ++ ops
          ∧ (∀ op ∈ ops, ∃ cfg ∈ stages, ∃ spec ∈ cfg, OpMatches ms width spec op
              ∧ isRecognizedKind op.kind = true)
          ∧ ops.length = (stages.map (stageBlockCount numStages depth)).sum := by
  intro stages
  induction stages with
  | nil =>
    intro i st
    exact ⟨st, rfl, by simp [specKeysAux], by simp, [], by simp, by simp, by simp⟩
  | cons cfg rest ih =>
    intro i st
    obtain ⟨st1, heq1, hfeat1, hstr1, ops1, htr1, hprop1, hlen1⟩ :=
      applyStage_spec numStages width depth ms st i cfg
    obtain ⟨st2, heq2, hfeat2, hstr2, ops2, htr2, hprop2, hlen2⟩ := ih (i + 1) st1
    have heqfold : (List.enumFrom i (cfg :: rest)).foldlM
        (applyStage numStages width depth ms) st = Except.ok st2 := by
      rw [List.enumFrom_cons, List.foldlM_cons, heq1]
      exact heq2
    refine ⟨st2, heqfold, ?_, ?_, ops1 ++ ops2, ?_, ?_, ?_⟩
    · rw [hfeat2, hfeat1, hstr1, specKeysAux, List.append_assoc]
      rfl
    · rw [hstr2, hstr1, List.map_cons, List.prod_cons, mul_assoc]
    · rw [htr2, htr1, List.append_assoc]
    · intro op hop
      rcases List.mem_append.mp hop with hop | hop
      · obtain ⟨spec, hspec, hm, hr⟩ := hprop1 op hop
        exact ⟨cfg, List.mem_cons_self cfg rest, spec, hspec, hm, hr⟩
      · obtain ⟨cfg', hcfg', spec, hspec, hm, hr⟩ := hprop2 op hop
        exact ⟨cfg', List.mem_cons_of_mem cfg hcfg', spec, hspec, hm, hr⟩
    · rw [List.length_append, hlen1, hlen2, List.map_cons, List.sum_cons]

theorem compileMobileNetV3_eq_ok (config : ModelConfig) (width depth : ℚ)
    (minimal fixStemAndHead : Bool) :
    compileMobileNetV3 config width depth minimal fixStemAndHead
      = Except.ok (compileOk config width depth minimal fixStemAndHead) := by
  obtain ⟨st', heq, _⟩ := stagesFold_spec config.length width depth
    (minimalSettings minimal) config 0
    ⟨if fixStemAndHead then 16 else make_divisible (16 * width), 2, [], ["STEM_S2"]⟩
  have h1 : compileMobileNetV3 config width depth minimal fixStemAndHead
      = Except.ok st' := heq
  rw [compileOk, h1]
  rfl

theorem compileOk_features (config : ModelConfig) (width depth : ℚ)
    (minimal fixStemAndHead : Bool) :
    (compileOk config width depth minimal fixStemAndHead).features
      = specFeatureKeys config depth := by
  obtain ⟨st', heq, hfeat, _⟩ := stagesFold_spec config.length width depth
    (minimalSettings minimal) config 0
    ⟨if fixStemAndHead then 16 else make_divisible (16 * width), 2, [], ["STEM_S2"]⟩
  have h1 : compileMobileNetV3 config width depth minimal fixStemAndHead
      = Except.ok st' := heq
  have h2 : compileOk config width depth minimal fixStemAndHead = st' := by
    rw [compileOk, h1]
    rfl
  rw [h2, hfeat]
  rfl

theorem compileOk_trace_mem (config : ModelConfig) (width depth : ℚ)
    (minimal fixStemAndHead : Bool) :
    ∀ op ∈ (compileOk config width depth minimal fixStemAndHead).trace,
      ∃ cfg ∈ config, ∃ spec ∈ cfg, OpMatches (minimalSettings minimal) width spec op
        ∧ isRecognizedKind op.kind = true := by
  obtain ⟨st', heq, _, _, ops, htr, hprop, _⟩ := stagesFold_spec config.length width depth
    (minimalSettings minimal) config 0
    ⟨if fixStemAndHead then 16 else make_divisible (16 * width), 2, [], ["STEM_S2"]⟩
  have h2 : compileOk config width depth minimal fixStemAndHead = st' := by
    rw [compileOk, show compileMobileNetV3 config width depth minimal fixStemAndHead
        = Except.ok st' from heq]
    rfl
  rw [h2, htr]
  intro op hop
  exact hprop op (by simpa using hop)

theorem compileOk_trace_length (config : ModelConfig) (width depth : ℚ)
    (minimal fixStemAndHead : Bool) :
    (compileOk config width depth minimal fixStemAndHead).trace.length
      = (config.map (stageBlockCount config.length depth)).sum := by
  obtain ⟨st', heq, _, _, ops, htr, _, hlen⟩ := stagesFold_spec config.length width depth
    (minimalSettings minimal) config 0
    ⟨if fixStemAndHead then 16 else make_divisible (16 * width), 2, [], ["STEM_S2"]⟩
  have h2 : compileOk config width depth minimal fixStemAndHead = st' := by
    rw [compileOk, show compileMobileNetV3 config width depth minimal fixStemAndHead
        = Except.ok st' from heq]
    rfl
  rw [h2, htr]
  simpa using hlen

/-- C6: under `minimal=True` the compiler replaces every `BlockSpec`'s
activation by the forced `"relu"`, clamps its kernel size to
`min(kernel, 3)`, and zeroes its squeeze-excitation ratio, while the rounded
channel count is still computed from the original channel value
(`make_divisible(c * width)`, untouched by the overrides); uniformly, every
block operation of a minimal-mode compilation carries activation `"relu"`,
se-ratio 0, and kernel size at most 3; in particular a `BlockSpec` with
`se_ratio = 0.25` compiles with effective se-ratio 0 (activation `"relu"`,
kernel clamped from 5 to 3). -/
theorem c6_minimal_mode_overrides :
    (∀ (width : ℚ) (spec : BlockSpec),
        effectiveParams (minimalSettings true) width spec
          = ⟨"relu", min spec.k 3, 0, make_divisible ((spec.c : ℚ) * width)⟩)
    ∧ (∀ (config : ModelConfig) (width depth : ℚ) (fix : Bool),
        (compileOk config width depth true fix).trace.all
          (fun op => op.act == "relu" && op.se == 0 && decide (op.kernel ≤ 3)) = true)
    ∧ ((effectiveParams (minimalSettings true) 1 ⟨"ir", 1, 5, 1, 4, 40, 1 / 4, "hard_swish"⟩).se
          = 0
      ∧ (effectiveParams (minimalSettings true) 1
          ⟨"ir", 1, 5, 1, 4, 40, 1 / 4, "hard_swish"⟩).act = "relu"
      ∧ (effectiveParams (minimalSettings true) 1
          ⟨"ir", 1, 5, 1, 4, 40, 1 / 4, "hard_swish"⟩).k = 3) := by
  have hparams : ∀ (width : ℚ) (spec : BlockSpec),
      effectiveParams (minimalSettings true) width spec
        = ⟨"relu", min spec.k 3, 0, make_divisible ((spec.c : ℚ) * width)⟩ := by
    intro width spec
    dsimp only [effectiveParams, minimalSettings]
    congr 1
    rw [min_def]
    split_ifs <;> omega
  refine ⟨hparams, ?_, by rw [hparams], by rw [hparams], by rw [hparams]; decide⟩
  · intro config width depth fix
    rw [List.all_eq_true]
    intro op hop
    obtain ⟨cfg, _, spec, _, ⟨_, _, hk, hse, hact⟩, _⟩ :=
      compileOk_trace_mem config width depth true fix op hop
    rw [hparams] at hk hse hact
    simp only [hact, hse, hk, beq_self_eq_true, Bool.true_and, Bool.and_self,
      decide_eq_true_eq]
    exact min_le_right _ _

/-- Stage configuration realising per-block strides `[2,1]` and `[2,1,1]`
(spec §8, cumulative stride bookkeeping example). -/
def exStrideCfg : ModelConfig :=
  [[⟨"ir", 1, 3, 2, 4, 24, 0, "relu"⟩, ⟨"ir", 1, 3, 1, 4, 24, 0, "relu"⟩],
   [⟨"ir", 1, 3, 2, 4, 48, 0, "relu"⟩, ⟨"ir", 1, 3, 1, 4, 48, 0, "relu"⟩,
    ⟨"ir", 1, 3, 1, 4, 48, 0, "relu"⟩]]

/-- C5: the compiler records feature taps keyed `STEM_S2` after the stem and
`BLOCK{stage_idx}_S{cumulative_stride}` after each stage, where the
cumulative stride starts at 2, is multiplied by every applied block stride
(the `BlockSpec`'s stride at repetition index 0, stride 1 afterwards), and
is never reset — for every configuration the recorded keys equal the
spec-side `specFeatureKeys`; for stem stride 2 and per-block strides
`[2,1]`, `[2,1,1]` the keys are `STEM_S2`, `BLOCK0_S4`, `BLOCK1_S8`. -/
theorem c5_feature_tap_keys :
    (∀ (config : ModelConfig) (width depth : ℚ) (minimal fix : Bool),
        (compileOk config width depth minimal fix).features = specFeatureKeys config depth)
    ∧ (compileOk exStrideCfg 1 1 false false).features
        = ["STEM_S2", "BLOCK0_S4", "BLOCK1_S8"] := by
  refine ⟨fun config width depth minimal fix => compileOk_features config width depth minimal fix, ?_⟩
  rw [compileOk_features]
  norm_num [specFeatureKeys, specKeysAux, stageStrideFactor, specStrideFactor,
    effectiveRepeat, layerStride, exStrideCfg, List.enum, List.enumFrom]
  decide

/-- Configuration whose only `BlockSpec` carries the unrecognized kind
`"xx"`. -/
def c2UnknownCfg : ModelConfig :=
  [[⟨"xx", 1, 3, 1, 1, 8, 0, "relu"⟩]]

/-- A recognized block followed by an unrecognized one (stride 2). -/
def c2MixedCfg : ModelConfig :=
  [[⟨"ir", 1, 3, 1, 4, 16, 0, "relu"⟩, ⟨"xx", 1, 3, 2, 1, 8, 0, "relu"⟩]]

/-- Counterexample to C2: compiling a configuration that contains only a
`BlockSpec` of unrecognized kind `"xx"` does NOT fail — it returns a result
(`toOption = some _`), whose trace is empty: the block was silently
skipped. -/
theorem c2_unrecognized_kind_counterexample :
    (compileMobileNetV3 c2UnknownCfg 1 1 false false).toOption.map
        (fun st => (st.trace, st.features))
      = some ([], ["STEM_S2", "BLOCK0_S2"]) := by
  rw [compileMobileNetV3_eq_ok]
  have hlen : (compileOk c2UnknownCfg 1 1 false false).trace.length = 0 := by
    rw [compileOk_trace_length]
    norm_num [c2UnknownCfg, stageBlockCount, specBlockCount, isRecognizedKind,
      List.enum, List.enumFrom]
    exact fun h => absurd h (by decide)
  have htrace : (compileOk c2UnknownCfg 1 1 false false).trace = [] :=
    List.eq_nil_of_length_eq_zero hlen
  have hfeat : (compileOk c2UnknownCfg 1 1 false false).features
      = ["STEM_S2", "BLOCK0_S2"] := by
    rw [compileOk_features]
    norm_num [specFeatureKeys, specKeysAux, stageStrideFactor, specStrideFactor,
      effectiveRepeat, layerStride, c2UnknownCfg, List.enum, List.enumFrom]
    decide
  simp [Except.toOption, htrace, hfeat]

/-- C2 amended: a stage configuration containing a `BlockSpec` with an
unrecognized `block_kind` does not make compilation fail — expansion never
raises for any configuration, every emitted block operation carries a
recognized kind (the unrecognized block is silently skipped, contributing
no operation), while its stride still enters the running stride product:
in the mixed example the skipped stride-2 block still turns the stage key
into `BLOCK0_S4`. -/
theorem c2_unrecognized_kind_skipped :
    (∀ (config : ModelConfig) (width depth : ℚ) (minimal fix : Bool),
        compileMobileNetV3 config width depth minimal fix
          = Except.ok (compileOk config width depth minimal fix))
    ∧ (∀ (config : ModelConfig) (width depth : ℚ) (minimal fix : Bool),
        (compileOk config width depth minimal fix).trace.all
          (fun op => isRecognizedKind op.kind) = true)
    ∧ (compileOk c2MixedCfg 1 1 false false).trace.map (fun op => op.kind) = ["ir"]
    ∧ (compileOk c2MixedCfg 1 1 false false).features = ["STEM_S2", "BLOCK0_S4"] := by
  refine ⟨compileMobileNetV3_eq_ok, ?_, ?_, ?_⟩
  · intro config width depth minimal fix
    rw [List.all_eq_true]
    intro op hop
    obtain ⟨_, _, _, _, _, hrec⟩ := compileOk_trace_mem config width depth minimal fix op hop
    exact hrec
  · have hlen : (compileOk c2MixedCfg 1 1 false false).trace.length = 1 := by
      rw [compileOk_trace_length]
      norm_num [c2MixedCfg, stageBlockCount, specBlockCount, isRecognizedKind,
        effectiveRepeat, List.enum, List.enumFrom]
      decide
    obtain ⟨op, hop⟩ := List.length_eq_one.mp hlen
    obtain ⟨cfg, hcfg, spec, hspec, ⟨hkind, _⟩, hrec⟩ :=
      compileOk_trace_mem c2MixedCfg 1 1 false false op
        (by rw [hop]; exact List.mem_singleton_self op)
    rw [hop, List.map_cons, List.map_nil]
    have hcfg' : cfg = [⟨"ir", 1, 3, 1, 4, 16, 0, "relu"⟩, ⟨"xx", 1, 3, 2, 1, 8, 0, "relu"⟩] := by
      simpa [c2MixedCfg] using hcfg
    subst hcfg'
    rcases List.mem_cons.mp hspec with rfl | hspec
    · rw [hkind]
    · rcases List.mem_cons.mp hspec with rfl | hspec
      · rw [hkind] at hrec
        exact absurd hrec (by decide)
      · cases hspec
  · rw [compileOk_features]
    norm_num [specFeatureKeys, specKeysAux, stageStrideFactor, specStrideFactor,
      effectiveRepeat, layerStride, c2MixedCfg, List.enum, List.enumFrom]
    decide

/-- A single stage of three `BlockSpec`s with repeat counts `[1, 2, 1]`. -/
def c1Stage : List BlockSpec :=
  [⟨"ir", 1, 3, 1, 4, 24, 0, "relu"⟩, ⟨"ir", 2, 3, 1, 4, 24, 0, "relu"⟩,
   ⟨"ir", 1, 3, 1, 4, 24, 0, "relu"⟩]

/-- A configuration consisting of that one stage. -/
def c1Cfg : ModelConfig := [c1Stage]

/-- C1 (evaluating the code at the failing input): for the single-stage
configuration with repeats `[1, 2, 1]` under `depth = 2.0`, the source's
exemption test `current_block_idx not in (0, len(_config) - 1)` compares
the within-stage block index against the number of STAGES minus one
(here 0), so the last entry of the stage is scaled as well: the effective
repeat counts are `[1, 4, 2]` — not the `[1, 4, 1]` the claim states — and
the full compilation emits 7 block operations instead of 6. -/
theorem c1_depth_scaling_failing_input :
    (c1Stage.enum.map (fun p => effectiveRepeat c1Cfg.length p.1 p.2.r 2)) = [1, 4, 2]
    ∧ (compileOk c1Cfg 1 2 false false).trace.length = 7 := by
  constructor
  · norm_num [c1Stage, c1Cfg, effectiveRepeat, List.enum, List.enumFrom]
    decide
  · rw [compileOk_trace_length]
    norm_num [c1Cfg, c1Stage, stageBlockCount, specBlockCount, isRecognizedKind,
      effectiveRepeat, List.enum, List.enumFrom]
    decide
